/-
  Verification development for the dumpsta crate-fetching pipeline.

  Shallow embedding of src/main.rs, src/dialog.rs and src/cli.rs.
  Rust strings are modelled as `List Char` (byte/char distinctions do not
  matter for the verified properties); machine integers as `Nat`, with the
  usize bound made explicit where the source uses saturating arithmetic;
  fallible operations return `Option`.
-/
import Mathlib

namespace Dumpsta

/-- Opening brace character (written numerically). -/
def obrace : Char := Char.ofNat 123

/-- Closing brace character (written numerically). -/
def cbrace : Char := Char.ofNat 125

/-- Model of Rust `str::split(sep)` over character lists: the maximal chunks
between occurrences of `sep`.  An empty input yields one empty chunk and a
trailing separator yields a trailing empty chunk, matching Rust. -/
def splitChar (sep : Char) : List Char → List (List Char)
  | [] => [[]]
  | c :: cs =>
    match splitChar sep cs with
    | [] => [[]]
    | t :: ts => if c = sep then [] :: t :: ts else (c :: t) :: ts

/-- Model of Rust `str::split_once(sep)`: the chunks strictly before and
strictly after the first occurrence of `sep`, or `none` when `sep` does not
occur. -/
def splitOnceChar (sep : Char) : List Char → Option (List Char × List Char)
  | [] => none
  | c :: cs =>
    if c = sep then some ([], cs)
    else (splitOnceChar sep cs).map fun p => (c :: p.1, p.2)

/-- Model of Rust `str::rsplit_once(sep)`: splits at the last occurrence of
`sep`, returning the chunk before it and the chunk after it. -/
def rsplitOnceChar (sep : Char) (l : List Char) : Option (List Char × List Char) :=
  (splitOnceChar sep l.reverse).map fun p => (p.2.reverse, p.1.reverse)

theorem splitChar_ne_nil : ∀ (sep : Char) (l : List Char), splitChar sep l ≠ []
  | _, [] => by simp [splitChar]
  | sep, c :: cs => by
    have ih := splitChar_ne_nil sep cs
    rcases hs : splitChar sep cs with _ | ⟨t, ts⟩
    · exact absurd hs ih
    · simp only [splitChar, hs]
      split <;> simp

theorem splitChar_of_not_mem {sep : Char} :
    ∀ {l : List Char}, sep ∉ l → splitChar sep l = [l] := by
  intro l
  induction l with
  | nil => intro _; simp [splitChar]
  | cons c cs ih =>
    intro h
    have hc : c ≠ sep := fun hcs => h (hcs ▸ List.mem_cons_self c cs)
    have hcs : sep ∉ cs := fun hm => h (List.mem_cons_of_mem c hm)
    simp only [splitChar, ih hcs]
    simp [hc]

theorem splitChar_append_cons (sep : Char) (r : List Char) :
    ∀ (a : List Char), sep ∉ a → splitChar sep (a ++ sep :: r) = a :: splitChar sep r := by
  intro a
  induction a with
  | nil =>
    intro _
    rcases hs : splitChar sep r with _ | ⟨t, ts⟩
    · exact absurd hs (splitChar_ne_nil sep r)
    · simp only [List.nil_append, splitChar, hs]
      simp
  | cons x a ih =>
    intro h
    have hx : x ≠ sep := fun hxs => h (hxs ▸ List.mem_cons_self x a)
    have ha : sep ∉ a := fun hm => h (List.mem_cons_of_mem x hm)
    have hsplit := ih ha
    simp only [List.cons_append, splitChar, List.append_eq]
    rw [hsplit]
    simp [hx]

theorem splitOnceChar_eq_none_iff (sep : Char) :
    ∀ (l : List Char), splitOnceChar sep l = none ↔ sep ∉ l := by
  intro l
  induction l with
  | nil => simp [splitOnceChar]
  | cons c cs ih =>
    by_cases hc : c = sep
    · subst hc
      simp [splitOnceChar]
    · have hcs : ¬ sep = c := fun h => hc h.symm
      simp only [splitOnceChar, if_neg hc, List.mem_cons]
      cases hs : splitOnceChar sep cs with
      | none =>
        have h2 := ih.mp hs
        simp [hs, hcs, h2]
      | some p =>
        have hmem : sep ∈ cs := by
          by_contra hnm
          have := ih.mpr hnm
          rw [this] at hs
          cases hs
        simp [hs, hmem]

theorem splitOnceChar_first (sep : Char) (after : List Char) :
    ∀ (w : List Char), sep ∉ w →
      splitOnceChar sep (w ++ sep :: after) = some (w, after) := by
  intro w
  induction w with
  | nil => intro _; simp [splitOnceChar]
  | cons x w ih =>
    intro h
    have hx : x ≠ sep := fun hxs => h (hxs ▸ List.mem_cons_self x w)
    have hw : sep ∉ w := fun hm => h (List.mem_cons_of_mem x hm)
    have hrec := ih hw
    simp only [List.cons_append, splitOnceChar, if_neg hx, List.append_eq]
    rw [hrec]
    rfl

/-- First-occurrence decomposition: a list containing `c` splits as a
`c`-free prefix, the first `c`, and a remainder. -/
theorem exists_first_occ (c : Char) :
    ∀ (l : List Char), c ∈ l → ∃ a r, l = a ++ c :: r ∧ c ∉ a := by
  intro l
  induction l with
  | nil => intro h; exact absurd h (List.not_mem_nil c)
  | cons x xs ih =>
    intro h
    by_cases hx : c = x
    · exact ⟨[], xs, by simp [hx], by simp⟩
    · have hm : c ∈ xs := by
        rcases List.mem_cons.mp h with h1 | h2
        · exact absurd h1 hx
        · exact h2
      obtain ⟨a, r, hl, ha⟩ := ih hm
      refine ⟨x :: a, r, by simp [hl], ?_⟩
      intro hmem
      rcases List.mem_cons.mp hmem with h1 | h2
      · exact hx h1
      · exact ha h2

/-- Terminal colors used by the reporter (subset of the `colored` crate's
`Color` enum that the source mentions). -/
inductive Color
  | black
  | red
  | green
  | yellow
  | blue
  | magenta
  | cyan
  | white
deriving DecidableEq, Repr

/-- Terminal styling is an external black box (the `colored` crate applies
ANSI codes only when coloring is enabled at runtime).  The dialog engine is
therefore parametric in the styling functions; `plainStyling` below is the
colors-disabled instantiation. -/
structure Styling where
  colorize : Color → List Char → List Char
  embolden : List Char → List Char

/-- Styling with colors disabled: `colored` leaves the text untouched. -/
def plainStyling : Styling := ⟨fun _ s => s, fun s => s⟩

/-- `DispType` from src/dialog.rs: whether a placeholder renders with the
`Display`-style or the `Debug`-style representation. -/
inductive DispType
  | regular
  | debug
deriving DecidableEq, Repr

/-- `Disp` from src/dialog.rs: the closed set of renderable values.
`usize` carries a count; `str` the characters of a string; `path` the
characters of a path (assumed valid unicode, so `to_string_lossy` is the
identity); `error` carries the `Display` and `Debug` renderings of the
wrapped `anyhow::Error`, which is an external black box. -/
inductive Disp
  | usize (n : Nat)
  | str (s : List Char)
  | path (p : List Char)
  | error (display : List Char) (debugRepr : List Char)
deriving DecidableEq, Repr

/-- One escaped character of Rust's `str` `Debug` output (`char::escape_debug`):
quotes, backslashes and common control characters get a backslash escape,
other control characters a unicode escape; printable characters are kept.
(The unicode printability table of the standard library is abstracted to
"non-control characters print as themselves".) -/
def rustCharEscapeDebug (c : Char) : List Char :=
  if c = Char.ofNat 34 then [Char.ofNat 92, Char.ofNat 34]
  else if c = Char.ofNat 92 then [Char.ofNat 92, Char.ofNat 92]
  else if c = Char.ofNat 10 then [Char.ofNat 92, 'n']
  else if c = Char.ofNat 13 then [Char.ofNat 92, 'r']
  else if c = Char.ofNat 9 then [Char.ofNat 92, 't']
  else if c = Char.ofNat 0 then [Char.ofNat 92, '0']
  else if c.toNat < 32 ∨ c.toNat = 127 then
    [Char.ofNat 92, 'u', obrace] ++ Nat.toDigits 16 c.toNat ++ [cbrace]
  else [c]

/-- Rust's `Debug` rendering of a string: surrounding quotes plus per-char
escaping.  `PathBuf`'s `Debug` impl renders the same way for unicode paths. -/
def rustStrDebug (s : List Char) : List Char :=
  Char.ofNat 34 :: (s.map rustCharEscapeDebug).flatten ++ [Char.ofNat 34]

/-- Default color per `Disp` variant (src/dialog.rs lines 55-62). -/
def defaultColor : Disp → Color
  | .usize _ => Color.blue
  | .str _ => Color.cyan
  | .path _ => Color.cyan
  | .error _ _ => Color.red

/-- `Disp::fmt` from src/dialog.rs: pick the `Display` or `Debug` string of
the value, then apply the forced color or the variant's default color. -/
def Disp.fmt (style : Styling) (d : Disp) (dispType : DispType) (forceColor : Option Color) :
    List Char :=
  let s : List Char :=
    match dispType with
    | DispType.regular =>
      match d with
      | Disp.usize v => (toString v).toList
      | Disp.str v => v
      | Disp.path v => v
      | Disp.error v _ => v
    | DispType.debug =>
      match d with
      | Disp.usize v => (toString v).toList
      | Disp.str v => rustStrDebug v
      | Disp.path v => rustStrDebug v
      | Disp.error _ v => v
  let c : Color :=
    match forceColor with
    | some c => c
    | none => defaultColor d
  style.colorize c s

/-- `Segment` from src/dialog.rs: literal text or a placeholder marker. -/
inductive Segment
  | text (s : List Char)
  | marker (dispType : DispType) (forceColor : Option Color)
deriving DecidableEq, Repr

/-- Whether a segment is a placeholder marker. -/
def Segment.isMarker : Segment → Bool
  | .marker _ _ => true
  | .text _ => false

/-- `FmtStr` from src/dialog.rs: a parsed template. -/
structure FmtStr where
  segments : List Segment
deriving DecidableEq, Repr

/-- Decoding of the text found between braces (src/dialog.rs lines 147-153):
empty means a `Display` placeholder, `:?` a `Debug` placeholder, anything
else is rejected. -/
def decodeWithinMarker (w : List Char) : Option DispType :=
  if w = [] then some DispType.regular
  else if w = [':', '?'] then some DispType.debug
  else none

/-- The loop body of `FmtStr::try_new` (src/dialog.rs lines 145-156): each
split after the first must contain a closing brace; the part before it is the
marker content, the part after is literal text. -/
def parseMarkerSplits : List (List Char) → Option (List Segment)
  | [] => some []
  | split :: more =>
    match splitOnceChar cbrace split with
    | none => none
    | some p =>
      match decodeWithinMarker p.1 with
      | none => none
      | some dispType =>
        (parseMarkerSplits more).map fun segs =>
          Segment.marker dispType none :: Segment.text p.2 :: segs

/-- `FmtStr::try_new` from src/dialog.rs: split on opening braces; the first
chunk is literal text, each following chunk starts with marker content
terminated by a closing brace. -/
def FmtStr.tryNew (s : List Char) : Option FmtStr :=
  match splitChar obrace s with
  | [] => none
  | first :: rest =>
    (parseMarkerSplits rest).map fun segs => ⟨Segment.text first :: segs⟩

/-- The loop of `FmtStr::try_fmt` (src/dialog.rs lines 161-181): walk the
segments, drawing one value per marker; fail if a marker has no value left or
values remain at the end. -/
def fmtSegments (style : Styling) : List Segment → List Disp → Option (List Char)
  | [], [] => some []
  | [], _ :: _ => none
  | Segment.text t :: rest, ds =>
    (fmtSegments style rest ds).map fun s => t ++ s
  | Segment.marker _ _ :: _, [] => none
  | Segment.marker dispType forceColor :: rest, d :: ds =>
    (fmtSegments style rest ds).map fun s => d.fmt style dispType forceColor ++ s

/-- `FmtStr::try_fmt` from src/dialog.rs. -/
def FmtStr.tryFmt (f : FmtStr) (style : Styling) (ds : List Disp) : Option (List Char) :=
  fmtSegments style f.segments ds

/-- Message levels (src/dialog.rs lines 101-106). -/
inductive Level
  | info
  | warn
  | error
deriving DecidableEq, Repr

/-- `From<Level> for Color` (src/dialog.rs lines 108-116). -/
def levelColor : Level → Color
  | Level.info => Color.blue
  | Level.warn => Color.magenta
  | Level.error => Color.red

/-- Largest `usize` value on the 64-bit targets the program runs on. -/
def usizeMax : Nat := 2 ^ 64 - 1

/-- `Dialog` from src/dialog.rs: a reporter value carrying only its indent
depth (a `NonZeroUsize` in the source, so constructors only ever store
positive values). -/
structure Dialog where
  indent : Nat
deriving DecidableEq, Repr

/-- `Dialog::raw_with_indent`: the argument is a `NonZeroUsize` in the
source, so callers can only pass a positive depth. -/
def Dialog.rawWithIndent (indent : Nat) : Dialog := ⟨indent⟩

/-- `Dialog::msg_str_with` (src/dialog.rs lines 285-304): render the line
`indent → message` and return the one-deeper child dialog.  The two `unwrap`
calls on the template engine are modelled by the `Option` result (`none`
means the process panics).  `saturating_add` on `usize` is `min` against
`usizeMax`. -/
def Dialog.msgStrWith (style : Styling) (d : Dialog) (color : Color) (msg : List Char)
    (ds : List Disp) : Option (Dialog × List Char) :=
  let arrow := style.embolden (style.colorize color ['-', '>'])
  let indentStr := (List.replicate (d.indent - 1) [' ', ' ']).flatten
  (FmtStr.tryNew msg).bind fun f =>
    (f.tryFmt style ds).map fun m =>
      (⟨min (d.indent + 1) usizeMax⟩, indentStr ++ arrow ++ [' '] ++ m)

/-- `Dialog::msg_with`: print the rendered line and return the child. -/
def Dialog.msgWith (style : Styling) (d : Dialog) (color : Color) (msg : List Char)
    (ds : List Disp) : Option Dialog :=
  (d.msgStrWith style color msg ds).map Prod.fst

/-- `Dialog::info_with` and friends route through `msg_str_with` with the
level's color. -/
def Dialog.infoWith (style : Styling) (d : Dialog) (msg : List Char) (ds : List Disp) :
    Option Dialog :=
  d.msgWith style (levelColor Level.info) msg ds

/-- `Dialog::warn_with`. -/
def Dialog.warnWith (style : Styling) (d : Dialog) (msg : List Char) (ds : List Disp) :
    Option Dialog :=
  d.msgWith style (levelColor Level.warn) msg ds

/-- `Dialog::error_with`. -/
def Dialog.errorWith (style : Styling) (d : Dialog) (msg : List Char) (ds : List Disp) :
    Option Dialog :=
  d.msgWith style (levelColor Level.error) msg ds

/-- `Dialog::info_str_with`. -/
def Dialog.infoStrWith (style : Styling) (d : Dialog) (msg : List Char) (ds : List Disp) :
    Option (Dialog × List Char) :=
  d.msgStrWith style (levelColor Level.info) msg ds

/-- `Dialog::new_with` (src/dialog.rs lines 199-209): render and print the
bold headline, return a fresh dialog of depth one.  The `unwrap` calls are
again modelled by `Option`. -/
def Dialog.newWith (style : Styling) (msg : List Char) (ds : List Disp) : Option Dialog :=
  (FmtStr.tryNew msg).bind fun f =>
    (f.tryFmt style ds).map fun _ => ⟨1⟩

/-- Specification-level template scanner, following the spec's words for the
template micro-language: literal text may contain a stray closing brace; an
opening brace starts a placeholder whose content must be empty (`Display`)
or `:?` (`Debug`) and must be terminated by a closing brace, otherwise the
template is malformed.  Returns the number of placeholders of a well-formed
template, `none` for a malformed one.  The first argument is `none` while
scanning text and `some content` inside a placeholder. -/
def scanTpl : Option (List Char) → List Char → Option Nat
  | none, [] => some 0
  | none, c :: cs => if c = obrace then scanTpl (some []) cs else scanTpl none cs
  | some _, [] => none
  | some acc, c :: cs =>
    if c = cbrace then
      if acc = [] ∨ acc = [':', '?'] then (scanTpl none cs).map (· + 1) else none
    else scanTpl (some (acc ++ [c])) cs

/-- Number of placeholders of a template per the specification scanner. -/
def specScan (l : List Char) : Option Nat := scanTpl none l

/-- Number of placeholder markers among a template's parsed segments. -/
def segMarkerCount (segs : List Segment) : Nat := segs.countP Segment.isMarker

theorem scanTpl_text_of_not_mem :
    ∀ {l : List Char}, obrace ∉ l → scanTpl none l = some 0 := by
  intro l
  induction l with
  | nil => intro _; rfl
  | cons c cs ih =>
    intro h
    have hc : c ≠ obrace := fun hco => h (hco ▸ List.mem_cons_self c cs)
    have hcs : obrace ∉ cs := fun hm => h (List.mem_cons_of_mem c hm)
    simp [scanTpl, hc, ih hcs]

theorem scanTpl_text_append (r : List Char) :
    ∀ {a : List Char}, obrace ∉ a →
      scanTpl none (a ++ obrace :: r) = scanTpl (some []) r := by
  intro a
  induction a with
  | nil => intro _; simp [scanTpl]
  | cons x a ih =>
    intro h
    have hx : x ≠ obrace := fun hxo => h (hxo ▸ List.mem_cons_self x a)
    have ha : obrace ∉ a := fun hm => h (List.mem_cons_of_mem x hm)
    simp [scanTpl, hx, ih ha]

theorem scanTpl_marker_of_not_mem :
    ∀ {l : List Char} (acc : List Char), cbrace ∉ l → scanTpl (some acc) l = none := by
  intro l
  induction l with
  | nil => intro _ _; rfl
  | cons c cs ih =>
    intro acc h
    have hc : c ≠ cbrace := fun hcc => h (hcc ▸ List.mem_cons_self c cs)
    have hcs : cbrace ∉ cs := fun hm => h (List.mem_cons_of_mem c hm)
    simp [scanTpl, hc, ih _ hcs]

theorem scanTpl_marker_first (after : List Char) :
    ∀ {w : List Char} (acc : List Char), cbrace ∉ w →
      scanTpl (some acc) (w ++ cbrace :: after) =
        if acc ++ w = [] ∨ acc ++ w = [':', '?'] then (scanTpl none after).map (· + 1)
        else none := by
  intro w
  induction w with
  | nil => intro acc _; simp [scanTpl]
  | cons x w ih =>
    intro acc h
    have hx : x ≠ cbrace := fun hxc => h (hxc ▸ List.mem_cons_self x w)
    have hw : cbrace ∉ w := fun hm => h (List.mem_cons_of_mem x hm)
    have hrec := ih (acc ++ [x]) hw
    simp only [List.cons_append, scanTpl, if_neg hx, List.append_eq]
    rw [hrec]
    simp [List.append_assoc]

theorem obrace_ne_cbrace : obrace ≠ cbrace := by decide

theorem obrace_ne_colon_qmark : obrace ∉ ([':', '?'] : List Char) := by decide

/-- Bridge between the split-based parser of the source and the
character-level specification scanner, for the part of the template that
follows an opening brace. -/
theorem parseMarkerSplits_eq_scanTpl :
    ∀ (n : Nat) (l : List Char), l.length ≤ n →
      (parseMarkerSplits (splitChar obrace l)).map segMarkerCount = scanTpl (some []) l := by
  intro n
  induction n with
  | zero =>
    intro l hl
    have hnil : l = [] := List.length_eq_zero.mp (Nat.le_zero.mp hl)
    subst hnil
    rfl
  | succ n ih =>
    intro l hl
    by_cases hcb : cbrace ∈ l
    · obtain ⟨w, after, hleq, hwcb⟩ := exists_first_occ cbrace l hcb
      subst hleq
      by_cases hobw : obrace ∈ w
      · -- an opening brace occurs before the first closing brace: both fail
        obtain ⟨a, r, hweq, haob⟩ := exists_first_occ obrace w hobw
        have hacb : cbrace ∉ a := fun hm => hwcb (hweq ▸ List.mem_append_left _ hm)
        have hwne : ¬(w = [] ∨ w = [':', '?']) := by
          rintro (h1 | h1) <;> rw [h1] at hobw
          · exact List.not_mem_nil _ hobw
          · exact obrace_ne_colon_qmark hobw
        rw [scanTpl_marker_first after [] hwcb]
        simp only [List.nil_append, if_neg hwne]
        have hsplit : splitChar obrace (w ++ cbrace :: after) =
            a :: splitChar obrace (r ++ cbrace :: after) := by
          rw [hweq, List.append_assoc, List.cons_append]
          exact splitChar_append_cons obrace (r ++ cbrace :: after) a haob
        rw [hsplit]
        simp [parseMarkerSplits, (splitOnceChar_eq_none_iff cbrace a).mpr hacb]
      · -- the marker content is brace-free: both sides agree on it
        rw [scanTpl_marker_first after [] hwcb]
        simp only [List.nil_append]
        by_cases hobafter : obrace ∈ after
        · obtain ⟨a, r, haeq, haob⟩ := exists_first_occ obrace after hobafter
          subst haeq
          have hobl : obrace ∉ w ++ cbrace :: a := by
            intro hm
            rcases List.mem_append.mp hm with h1 | h1
            · exact hobw h1
            · rcases List.mem_cons.mp h1 with h2 | h2
              · exact obrace_ne_cbrace h2
              · exact haob h2
          have hassoc : w ++ cbrace :: (a ++ obrace :: r) =
              (w ++ cbrace :: a) ++ obrace :: r := by
            simp [List.append_assoc]
          have hsplit : splitChar obrace (w ++ cbrace :: (a ++ obrace :: r)) =
              (w ++ cbrace :: a) :: splitChar obrace r := by
            rw [hassoc]
            exact splitChar_append_cons obrace r (w ++ cbrace :: a) hobl
          rw [hsplit]
          have hr : r.length ≤ n := by
            have := congrArg List.length hassoc
            simp [List.length_append] at hl ⊢
            omega
          have hihr := ih r hr
          rw [scanTpl_text_append r haob]
          by_cases hgood : w = [] ∨ w = [':', '?']
          · have hdec : ∃ dt, decodeWithinMarker w = some dt := by
              rcases hgood with h1 | h1
              · exact ⟨DispType.regular, by rw [h1]; decide⟩
              · exact ⟨DispType.debug, by rw [h1]; decide⟩
            obtain ⟨dt, hdt⟩ := hdec
            simp only [parseMarkerSplits, splitOnceChar_first cbrace a w hwcb, hdt,
              if_pos hgood]
            rw [← hihr]
            cases hres : parseMarkerSplits (splitChar obrace r) with
            | none => simp [hres]
            | some segs =>
              simp [hres, segMarkerCount, List.countP_cons, Segment.isMarker, Nat.add_comm]
          · have hdec : decodeWithinMarker w = none := by
              simp only [decodeWithinMarker]
              rcases (not_or.mp hgood) with ⟨h1, h2⟩
              simp [h1, h2]
            simp only [parseMarkerSplits, splitOnceChar_first cbrace a w hwcb, hdec,
              if_neg hgood]
            rfl
        · have hobl : obrace ∉ w ++ cbrace :: after := by
            intro hm
            rcases List.mem_append.mp hm with h1 | h1
            · exact hobw h1
            · rcases List.mem_cons.mp h1 with h2 | h2
              · exact obrace_ne_cbrace h2
              · exact hobafter h2
          rw [splitChar_of_not_mem hobl]
          rw [scanTpl_text_of_not_mem hobafter]
          by_cases hgood : w = [] ∨ w = [':', '?']
          · have hdec : ∃ dt, decodeWithinMarker w = some dt := by
              rcases hgood with h1 | h1
              · exact ⟨DispType.regular, by rw [h1]; decide⟩
              · exact ⟨DispType.debug, by rw [h1]; decide⟩
            obtain ⟨dt, hdt⟩ := hdec
            simp only [parseMarkerSplits, splitOnceChar_first cbrace after w hwcb, hdt,
              if_pos hgood]
            simp [segMarkerCount, List.countP_cons, List.countP_nil, Segment.isMarker]
          · have hdec : decodeWithinMarker w = none := by
              simp only [decodeWithinMarker]
              rcases (not_or.mp hgood) with ⟨h1, h2⟩
              simp [h1, h2]
            simp only [parseMarkerSplits, splitOnceChar_first cbrace after w hwcb, hdec,
              if_neg hgood]
            rfl
    · -- no closing brace anywhere: the scanner fails, and so does the parser
      rw [scanTpl_marker_of_not_mem [] hcb]
      by_cases hob : obrace ∈ l
      · obtain ⟨a, r, hleq, haob⟩ := exists_first_occ obrace l hob
        subst hleq
        have hacb : cbrace ∉ a := fun hm => hcb (List.mem_append_left _ hm)
        rw [splitChar_append_cons obrace r a haob]
        simp [parseMarkerSplits, (splitOnceChar_eq_none_iff cbrace a).mpr hacb]
      · rw [splitChar_of_not_mem hob]
        simp [parseMarkerSplits, (splitOnceChar_eq_none_iff cbrace l).mpr hcb]

/-- The split-based parser accepts exactly the templates the specification
scanner accepts, and they agree on the number of placeholders. -/
theorem tryNew_eq_specScan (s : List Char) :
    (FmtStr.tryNew s).map (fun f => segMarkerCount f.segments) = specScan s := by
  by_cases hob : obrace ∈ s
  · obtain ⟨a, r, hseq, haob⟩ := exists_first_occ obrace s hob
    subst hseq
    rw [FmtStr.tryNew, splitChar_append_cons obrace r a haob]
    rw [specScan, scanTpl_text_append r haob]
    rw [← parseMarkerSplits_eq_scanTpl r.length r (Nat.le_refl _)]
    cases hres : parseMarkerSplits (splitChar obrace r) with
    | none => simp [hres]
    | some segs =>
      simp [hres, segMarkerCount, List.countP_cons, Segment.isMarker]
  · rw [FmtStr.tryNew, splitChar_of_not_mem hob]
    rw [specScan, scanTpl_text_of_not_mem hob]
    simp [parseMarkerSplits, segMarkerCount, List.countP_cons, List.countP_nil,
      Segment.isMarker]

/-- Value-arity characterization of `FmtStr::try_fmt`: it succeeds exactly
when the number of markers equals the number of supplied values. -/
theorem fmtSegments_isSome_iff (style : Styling) :
    ∀ (segs : List Segment) (ds : List Disp),
      (fmtSegments style segs ds).isSome = true ↔ segMarkerCount segs = ds.length := by
  intro segs
  induction segs with
  | nil =>
    intro ds
    cases ds with
    | nil => simp [fmtSegments, segMarkerCount]
    | cons d ds => simp [fmtSegments, segMarkerCount]
  | cons seg rest ih =>
    intro ds
    cases seg with
    | text t =>
      simp [fmtSegments, segMarkerCount, List.countP_cons, Segment.isMarker, ih ds,
        segMarkerCount]
    | marker dt fc =>
      cases ds with
      | nil =>
        simp [fmtSegments, segMarkerCount, List.countP_cons, Segment.isMarker]
      | cons d ds =>
        simp [fmtSegments, segMarkerCount, List.countP_cons, Segment.isMarker, ih ds]

/-- One dependency entry of an index record (`crates_index::Dependency`):
only the crate name is consulted by the program. -/
structure Dependency where
  crateName : String
deriving DecidableEq, Repr

/-- One published version record (`crates_index::Version`): name, version
string and dependency list.  The `VersionExt` newtype of src/main.rs is a
transparent wrapper, so it is not modelled separately. -/
structure Version where
  name : String
  vers : String
  deps : List Dependency
deriving DecidableEq, Repr

/-- One crate of the index (`crates_index::Crate`): the program only reads
its highest version. -/
structure Crate where
  highestVersion : Version
deriving DecidableEq, Repr

/-- `VersionExt`'s `PartialEq` impl (src/main.rs lines 128-132): equality of
name and version string, nothing else. -/
def VersionExt.eq (a b : Version) : Bool :=
  a.name == b.name && a.vers == b.vers

/-- `LocalCrates` from src/main.rs: the set of directory-entry names found
under the registry `src` directory (a `BTreeSet<String>`, modelled as the
list of its members). -/
structure LocalCrates where
  listing : List String
deriving DecidableEq, Repr

/-- `LocalCrates::contains` (src/main.rs lines 95-98): exact membership of
the string `name-version`. -/
def LocalCrates.contains (lc : LocalCrates) (v : Version) : Bool :=
  lc.listing.contains (v.name ++ "-" ++ v.vers)

/-- `LocalCrates::new` (src/main.rs lines 82-93), given the result of
reading the registry `src` directory.  The outer `Option` is the
`read_dir()?` result (`none` = the listing itself cannot be read, surfaced
to the caller); each entry is `none` when unreadable (`filter_map(Result::ok)`)
and `some none` when its name is not valid UTF-8
(`file_name().to_str()` fails); both are silently skipped. -/
def localCratesNew (listing : Option (List (Option (Option String)))) :
    Option LocalCrates :=
  listing.map fun entries => ⟨(entries.filterMap id).filterMap id⟩

/-- The index traversal feeding the planner (src/main.rs lines 170-174):
`crates_parallel()` yields fallible records; errors are skipped by
`filter_map(|maybe_krate| maybe_krate.ok())` and each surviving crate
contributes its highest version. -/
def newVersions (index : List (Option Crate)) : List Version :=
  (index.filterMap id).map Crate.highestVersion

/-- The dependent filter (src/main.rs lines 176-183): keep the versions
declaring a dependency named `insta`. -/
def usesInsta (vs : List Version) : List Version :=
  vs.filter fun v => v.deps.any fun dep => dep.crateName == "insta"

/-- The fetch planner (src/main.rs lines 196-201): drop versions present in
the local inventory, then resolve each survivor to a download URL
(`version.download_url(&config)` can fail, in which case `filter_map` drops
the record). -/
def downloadUrls (lc : LocalCrates) (resolve : Version → Option (List Char))
    (vs : List Version) : List (List Char) :=
  (vs.filter fun v => ! lc.contains v).filterMap resolve

/-- The failure stages of the orchestrator loop (src/main.rs lines 237-310). -/
inductive Stage
  | network
  | fileCreate
  | fileWrite
  | fileOpen
  | extract
deriving DecidableEq, Repr

/-- Per-target result of the orchestrator loop. -/
inductive Outcome
  | downloaded (fileName : List Char)
  | failed (stage : Stage)
deriving DecidableEq, Repr

/-- Whether an outcome took one of the `continue`-with-increment branches. -/
def Outcome.isFailed : Outcome → Bool
  | .failed _ => true
  | .downloaded _ => false

/-- The part of an HTTP response the loop reads: `resp.get_url()` is the
final URL after redirects. -/
structure Response where
  finalUrl : List Char
deriving DecidableEq, Repr

/-- Environment behavior for one fetch target: the network result for its
URL and whether each filesystem stage succeeds.  Streaming bodies are
irrelevant to the verified properties and are elided. -/
structure TargetBehavior where
  network : Option Response
  fileCreate : Bool
  fileWrite : Bool
  fileOpen : Bool
  extract : Bool
deriving Repr

/-- The destination file name chosen at src/main.rs line 254:
`resp.get_url().rsplit_once('/')` — the `unwrap` is modelled by the
`Option` (`none` = the process panics). -/
def destFileName (resp : Response) : Option (List Char) :=
  (rsplitOnceChar '/' resp.finalUrl).map Prod.snd

/-- One iteration of the orchestrator loop (src/main.rs lines 237-310) for
the target `url` under environment `env`: each stage failure takes a
`continue` branch with a per-target outcome; `none` models the process
panic when the final URL contains no slash. -/
def processTarget (env : List Char → TargetBehavior) (url : List Char) : Option Outcome :=
  let b := env url
  match b.network with
  | none => some (Outcome.failed Stage.network)
  | some resp =>
    match destFileName resp with
    | none => none
    | some fileName =>
      if b.fileCreate = false then some (Outcome.failed Stage.fileCreate)
      else if b.fileWrite = false then some (Outcome.failed Stage.fileWrite)
      else if b.fileOpen = false then some (Outcome.failed Stage.fileOpen)
      else if b.extract = false then some (Outcome.failed Stage.extract)
      else some (Outcome.downloaded fileName)

/-- The orchestrator loop: processes the planned URLs in order, threading
the `num_install_errors` counter, which each failing target increments by
one.  `none` models a panic aborting the whole run. -/
def runLoop (env : List Char → TargetBehavior) :
    Nat → List (List Char) → Option (List Outcome × Nat)
  | acc, [] => some ([], acc)
  | acc, url :: rest =>
    match processTarget env url with
    | none => none
    | some o =>
      (runLoop env (if o.isFailed then acc + 1 else acc) rest).map fun p =>
        (o :: p.1, p.2)

/-- The sequence of network requests the loop issues: one per iteration, in
plan order, stopping only when a panic aborts the run (the panicking
iteration has already issued its request). -/
def requestsIssued (env : List Char → TargetBehavior) :
    List (List Char) → List (List Char)
  | [] => []
  | url :: rest =>
    match processTarget env url with
    | none => [url]
    | some _ => url :: requestsIssued env rest

/-- End-of-run state (src/main.rs lines 312-316): the outcomes, the failure
count, whether the summary warning is printed (`num_install_errors != 0`)
and whether the process exits successfully (it always does once the loop
finishes). -/
structure RunSummary where
  outcomes : List Outcome
  numErrors : Nat
  warned : Bool
  okExit : Bool
deriving Repr

/-- The loop followed by the end-of-run summary. -/
def orchestrate (env : List Char → TargetBehavior) (urls : List (List Char)) :
    Option RunSummary :=
  (runLoop env 0 urls).map fun p => ⟨p.1, p.2, p.2 != 0, true⟩

/-- The crawl-politeness constant (src/main.rs line 239):
`sleep(Duration::from_secs(1))` before every request, in seconds. -/
def throttleInterval : Nat := 1

/-- Start times of the network requests for the planned URLs: each loop
iteration first sleeps the full interval, then issues its request, then
spends `dur url` time units on the response and the filesystem stages. -/
def requestTimes (interval : Nat) (dur : List Char → Nat) :
    Nat → List (List Char) → List Nat
  | _, [] => []
  | t, url :: rest => (t + interval) :: requestTimes interval dur (t + interval + dur url) rest

/-- Observable result of one program run. -/
structure MainResult where
  planned : Option (List (List Char))
  requests : List (List Char)
  summary : Option RunSummary
  okExit : Bool
deriving Repr

/-- `main` from src/main.rs (lines 154-317), with the external collaborators
(environment resolution, progress bars, console styling) elided: compute the
dependent versions from the index, scan the local inventory (fatal when the
listing is unreadable), plan the downloads, stop after planning when
`dry_run` is set, otherwise run the orchestrator loop. -/
def mainModel (dryRun : Bool) (index : List (Option Crate))
    (listing : Option (List (Option (Option String))))
    (resolve : Version → Option (List Char))
    (env : List Char → TargetBehavior) : MainResult :=
  let uses := usesInsta (newVersions index)
  match localCratesNew listing with
  | none => ⟨none, [], none, false⟩
  | some lc =>
    let plan := downloadUrls lc resolve uses
    if dryRun then ⟨some plan, [], none, true⟩
    else
      match orchestrate env plan with
      | none => ⟨some plan, requestsIssued env plan, none, false⟩
      | some s => ⟨some plan, requestsIssued env plan, some s, true⟩

/-- The substring of a URL after its last slash, stated directly from the
spec's words. -/
def suffixAfterLastSlash (l : List Char) : List Char :=
  (l.reverse.takeWhile (fun c => c != '/')).reverse

theorem takeWhile_until_first_occ (c : Char) (r : List Char) :
    ∀ (a : List Char), c ∉ a →
      (a ++ c :: r).takeWhile (fun x => x != c) = a := by
  intro a
  induction a with
  | nil => intro _; simp [List.takeWhile]
  | cons x a ih =>
    intro h
    have hx : x ≠ c := fun hxc => h (hxc ▸ List.mem_cons_self x a)
    have ha : c ∉ a := fun hm => h (List.mem_cons_of_mem x hm)
    simp [List.takeWhile_cons, hx, ih ha]

/-- `rsplit_once` extracts exactly the text after the last separator. -/
theorem rsplitOnceChar_snd (sep : Char) (l : List Char) (h : sep ∈ l) :
    (rsplitOnceChar sep l).map Prod.snd =
      some ((l.reverse.takeWhile (fun x => x != sep)).reverse) := by
  have hrev : sep ∈ l.reverse := List.mem_reverse.mpr h
  obtain ⟨a, r, heq, ha⟩ := exists_first_occ sep l.reverse hrev
  rw [rsplitOnceChar, heq, splitOnceChar_first sep r a ha,
    takeWhile_until_first_occ sep r a ha]
  rfl

/-- Elementwise specification of the orchestrator loop when no iteration
panics: one outcome per target, in order, and the final counter counts the
failed outcomes. -/
theorem runLoop_spec (env : List Char → TargetBehavior) :
    ∀ (urls : List (List Char)) (acc : Nat),
      (∀ u ∈ urls, processTarget env u ≠ none) →
      ∃ os, runLoop env acc urls = some (os, acc + os.countP Outcome.isFailed) ∧
        os.length = urls.length ∧
        ∀ (i : Nat) (h1 : i < urls.length) (h2 : i < os.length),
          processTarget env (urls.get ⟨i, h1⟩) = some (os.get ⟨i, h2⟩) := by
  intro urls
  induction urls with
  | nil =>
    intro acc _
    exact ⟨[], by simp [runLoop], by simp, fun i h1 _ => absurd h1 (by simp)⟩
  | cons u rest ih =>
    intro acc h
    have hu : processTarget env u ≠ none := h u (List.mem_cons_self u rest)
    obtain ⟨o, ho⟩ := Option.ne_none_iff_exists.mp hu
    obtain ⟨os, hrun, hlen, hpt⟩ :=
      ih (if o.isFailed then acc + 1 else acc) (fun v hv => h v (List.mem_cons_of_mem u hv))
    refine ⟨o :: os, ?_, by simp [hlen], ?_⟩
    · have hstep : runLoop env acc (u :: rest) =
          (runLoop env (if o.isFailed then acc + 1 else acc) rest).map fun p =>
            (o :: p.1, p.2) := by
        rw [runLoop, ← ho]
      rw [hstep, hrun]
      have hcount : (if o.isFailed then acc + 1 else acc) + os.countP Outcome.isFailed =
          acc + (o :: os).countP Outcome.isFailed := by
        rw [List.countP_cons]
        cases hfo : o.isFailed
        · simp [hfo]
        · simp [hfo]
          omega
      simp [hcount]
    · intro i h1 h2
      cases i with
      | zero => simpa using ho.symm
      | succ i =>
        have h1i : i < rest.length := by simpa using h1
        have h2i : i < os.length := by simpa using h2
        simpa using hpt i h1i h2i

/-- Claim C1, counterexample to the claim as stated: with one record whose
highest version depends on `insta`, an empty local inventory and a registry
configuration under which URL resolution fails, the planned fetch list is
empty while `DependentFinder(index) − LocalInventory` contains the record,
so the plan is not exactly the set difference. -/
theorem c1_counterexample :
    downloadUrls ⟨[]⟩ (fun _ => none)
        (usesInsta (newVersions [some ⟨⟨"foo", "1.0.0", [⟨"insta"⟩]⟩⟩])) = [] ∧
    ((usesInsta (newVersions [some ⟨⟨"foo", "1.0.0", [⟨"insta"⟩]⟩⟩])).filter
        fun v => ! LocalCrates.contains ⟨[]⟩ v) =
      [⟨"foo", "1.0.0", [⟨"insta"⟩]⟩] ∧
    ([] : List (List Char)).length ≠
      ([(⟨"foo", "1.0.0", [⟨"insta"⟩]⟩ : Version)]).length := by
  refine ⟨by decide, by decide, by decide⟩

/-- Claim C1 (amended): the planned fetch list consists exactly of the
download URLs of the records whose highest version depends on `insta` and
whose name-version key is absent from the local inventory, restricted to
the records whose URL resolution succeeds; it is computed once per run and
each planned target is requested exactly once — no target is retried after
failing. -/
theorem c1_plan :
    (∀ (index : List (Option Crate)) (lc : LocalCrates)
        (resolve : Version → Option (List Char)) (u : List Char),
      u ∈ downloadUrls lc resolve (usesInsta (newVersions index)) ↔
        ∃ v, v ∈ newVersions index ∧
          (v.deps.any fun dep => dep.crateName == "insta") = true ∧
          lc.contains v = false ∧ resolve v = some u) ∧
    (∀ (env : List Char → TargetBehavior) (urls : List (List Char)),
      (∀ u ∈ urls, processTarget env u ≠ none) →
      requestsIssued env urls = urls) := by
  constructor
  · intro index lc resolve u
    simp only [downloadUrls, usesInsta, List.mem_filterMap, List.mem_filter,
      Bool.not_eq_true']
    constructor
    · rintro ⟨v, ⟨⟨hv, hdep⟩, hcon⟩, hres⟩
      exact ⟨v, hv, hdep, hcon, hres⟩
    · rintro ⟨v, hv, hdep, hcon, hres⟩
      exact ⟨v, ⟨⟨hv, hdep⟩, hcon⟩, hres⟩
  · intro env urls
    induction urls with
    | nil => intro _; rfl
    | cons u rest ih =>
      intro h
      have hu : processTarget env u ≠ none := h u (List.mem_cons_self u rest)
      obtain ⟨o, ho⟩ := Option.ne_none_iff_exists.mp hu
      rw [requestsIssued, ← ho]
      rw [ih (fun v hv => h v (List.mem_cons_of_mem u hv))]

/-- Witness for Claim C1's amended theorem at concrete inputs. -/
theorem c1_plan_witness :
    requestsIssued (fun _ => ⟨some ⟨['a', '/', 'b']⟩, true, true, true, true⟩)
      [['u']] = [['u']] :=
  c1_plan.2 (fun _ => ⟨some ⟨['a', '/', 'b']⟩, true, true, true, true⟩) [['u']]
    (by intro u hu; simp at hu; subst hu; decide)

/-- Claim C2: when no iteration panics, every target is attempted and gets
exactly one outcome, each stage failure is recorded for its own target and
bumps the failure counter by exactly one, the end-of-run warning is printed
iff the counter is nonzero, and the process still exits successfully. -/
theorem c2_failure_isolation :
    ∀ (env : List Char → TargetBehavior) (urls : List (List Char)),
      (∀ u ∈ urls, processTarget env u ≠ none) →
      ∃ s, orchestrate env urls = some s ∧
        s.outcomes.length = urls.length ∧
        (∀ (i : Nat) (h1 : i < urls.length) (h2 : i < s.outcomes.length),
          processTarget env (urls.get ⟨i, h1⟩) = some (s.outcomes.get ⟨i, h2⟩)) ∧
        s.numErrors = s.outcomes.countP Outcome.isFailed ∧
        (s.warned = true ↔ s.numErrors ≠ 0) ∧
        s.okExit = true := by
  intro env urls h
  obtain ⟨os, hrun, hlen, hpt⟩ := runLoop_spec env urls 0 h
  refine ⟨⟨os, os.countP Outcome.isFailed,
    (os.countP Outcome.isFailed) != 0, true⟩, ?_, hlen, hpt, rfl, ?_, rfl⟩
  · rw [orchestrate, hrun]
    simp
  · simp [bne_iff_ne]

/-- Witness for Claim C2 at a concrete two-target run with one network
failure and one success. -/
theorem c2_failure_isolation_witness :
    ∃ s, orchestrate
        (fun u => if u = ['x'] then ⟨none, true, true, true, true⟩
                  else ⟨some ⟨['a', '/', 'b']⟩, true, true, true, true⟩)
        [['x'], ['y']] = some s ∧
      s.outcomes.length = ([['x'], ['y']] : List (List Char)).length ∧
      (∀ (i : Nat) (h1 : i < ([['x'], ['y']] : List (List Char)).length)
          (h2 : i < s.outcomes.length),
        processTarget
          (fun u => if u = ['x'] then ⟨none, true, true, true, true⟩
                    else ⟨some ⟨['a', '/', 'b']⟩, true, true, true, true⟩)
          (([['x'], ['y']] : List (List Char)).get ⟨i, h1⟩) =
          some (s.outcomes.get ⟨i, h2⟩)) ∧
      s.numErrors = s.outcomes.countP Outcome.isFailed ∧
      (s.warned = true ↔ s.numErrors ≠ 0) ∧
      s.okExit = true :=
  c2_failure_isolation
    (fun u => if u = ['x'] then ⟨none, true, true, true, true⟩
              else ⟨some ⟨['a', '/', 'b']⟩, true, true, true, true⟩)
    [['x'], ['y']]
    (by intro u hu; simp at hu; rcases hu with hu | hu <;> subst hu <;> decide)

/-- Claim C3: the loop sleeps the full throttle interval before every
request (including the first), so the starts of two consecutive network
requests are always at least the interval apart, regardless of how long
each response takes to process. -/
theorem c3_throttle :
    (∀ (dur : List Char → Nat) (t0 : Nat) (url : List Char) (rest : List (List Char)),
      requestTimes throttleInterval dur t0 (url :: rest) =
        (t0 + throttleInterval) ::
          requestTimes throttleInterval dur (t0 + throttleInterval + dur url) rest) ∧
    (∀ (dur : List Char → Nat) (t0 : Nat) (urls : List (List Char)) (i : Nat)
        (h1 : i < (requestTimes throttleInterval dur t0 urls).length)
        (h2 : i + 1 < (requestTimes throttleInterval dur t0 urls).length),
      (requestTimes throttleInterval dur t0 urls).get ⟨i, h1⟩ + throttleInterval ≤
        (requestTimes throttleInterval dur t0 urls).get ⟨i + 1, h2⟩) := by
  constructor
  · intro dur t0 url rest
    rfl
  · intro dur t0 urls
    induction urls generalizing t0 with
    | nil =>
      intro i h1 _
      simp [requestTimes] at h1
    | cons u rest ih =>
      intro i h1 h2
      cases i with
      | zero =>
        cases rest with
        | nil => simp [requestTimes] at h2
        | cons v vs =>
          simp only [requestTimes, List.get]
          omega
      | succ i =>
        have h1i : i < (requestTimes throttleInterval dur (t0 + throttleInterval + dur u) rest).length := by
          simpa [requestTimes] using h1
        have h2i : i + 1 < (requestTimes throttleInterval dur (t0 + throttleInterval + dur u) rest).length := by
          simpa [requestTimes] using h2
        simpa [requestTimes] using ih (t0 + throttleInterval + dur u) i h1i h2i

/-- Witness for Claim C3 at a concrete two-request run. -/
theorem c3_throttle_witness :
    (requestTimes throttleInterval (fun _ => 5) 0 [['a'], ['b']]).get
        ⟨0, by decide⟩ + throttleInterval ≤
      (requestTimes throttleInterval (fun _ => 5) 0 [['a'], ['b']]).get ⟨1, by decide⟩ :=
  c3_throttle.2 (fun _ => 5) 0 [['a'], ['b']] 0 (by decide) (by decide)

/-- Claim C4: with the dry-run flag set (and the inventory scan succeeding),
the program computes the plan from the index and the inventory, issues no
network request, runs no orchestrator iteration, and exits successfully. -/
theorem c4_dry_run :
    ∀ (index : List (Option Crate)) (listing : Option (List (Option (Option String))))
      (resolve : Version → Option (List Char)) (env : List Char → TargetBehavior)
      (lc : LocalCrates),
      localCratesNew listing = some lc →
      mainModel true index listing resolve env =
        ⟨some (downloadUrls lc resolve (usesInsta (newVersions index))), [], none, true⟩ := by
  intro index listing resolve env lc h
  rw [mainModel, h]
  rfl

/-- Witness for Claim C4 at concrete inputs. -/
theorem c4_dry_run_witness :
    mainModel true [some ⟨⟨"foo", "1.0.0", [⟨"insta"⟩]⟩⟩] (some [])
        (fun _ => some ['u']) (fun _ => ⟨none, false, false, false, false⟩) =
      ⟨some (downloadUrls ⟨[]⟩ (fun _ => some ['u'])
        (usesInsta (newVersions [some ⟨⟨"foo", "1.0.0", [⟨"insta"⟩]⟩⟩]))), [], none, true⟩ :=
  c4_dry_run [some ⟨⟨"foo", "1.0.0", [⟨"insta"⟩]⟩⟩] (some []) (fun _ => some ['u'])
    (fun _ => ⟨none, false, false, false, false⟩) ⟨[]⟩ rfl

/-- Claim C5: inventory membership is exact string equality on the
`name-version` key, record identity is exact equality of name and version
string, and a record whose version string differs from the locally present
one is not considered present (no semantic-version normalization). -/
theorem c5_inventory_membership :
    (∀ (lc : LocalCrates) (v : Version),
      lc.contains v = true ↔ (v.name ++ "-" ++ v.vers) ∈ lc.listing) ∧
    (∀ (a b : Version), VersionExt.eq a b = true ↔ a.name = b.name ∧ a.vers = b.vers) ∧
    (∀ (n va vb : String) (deps : List Dependency), va ≠ vb →
      LocalCrates.contains ⟨[n ++ "-" ++ vb]⟩ ⟨n, va, deps⟩ = false) := by
  refine ⟨?_, ?_, ?_⟩
  · intro lc v
    simp [LocalCrates.contains, List.elem_iff]
  · intro a b
    simp [VersionExt.eq, Bool.and_eq_true, beq_iff_eq]
  · intro n va vb deps hne
    have hkey : n ++ "-" ++ va ≠ n ++ "-" ++ vb := by
      intro h
      apply hne
      have hd := congrArg String.data h
      simp only [String.data_append] at hd
      have := List.append_cancel_left hd
      exact String.ext this
    simp [LocalCrates.contains, List.elem_iff, hkey]

/-- Witness for Claim C5: a record locally present as version `1.0.0` does
not count as present for version `1.0`. -/
theorem c5_inventory_membership_witness :
    LocalCrates.contains ⟨["foo" ++ "-" ++ "1.0.0"]⟩ ⟨"foo", "1.0", []⟩ = false :=
  c5_inventory_membership.2.2 "foo" "1.0" "1.0.0" [] (by decide)

/-- Claim C6: the inventory scan fails exactly when the top-level directory
listing itself cannot be read; an individual entry that is unreadable or
has a non-UTF8 name is silently skipped (treated as absent) and never fails
the scan. -/
theorem c6_inventory_scan :
    (∀ (listing : Option (List (Option (Option String)))),
      (localCratesNew listing).isSome = listing.isSome) ∧
    (∀ (es1 es2 : List (Option (Option String))) (bad : Option (Option String)),
      bad = none ∨ bad = some none →
      localCratesNew (some (es1 ++ bad :: es2)) = localCratesNew (some (es1 ++ es2))) := by
  constructor
  · intro listing
    cases listing <;> rfl
  · intro es1 es2 bad hbad
    rcases hbad with h | h <;> subst h <;>
      simp [localCratesNew, List.filterMap_append, List.filterMap_cons]

/-- Witness for Claim C6: an unreadable entry in the middle of the listing
does not change the scan result. -/
theorem c6_inventory_scan_witness :
    localCratesNew (some ([some (some "a-1.0.0")] ++ none :: [some (some "b-2.0.0")])) =
      localCratesNew (some ([some (some "a-1.0.0")] ++ [some (some "b-2.0.0")])) :=
  c6_inventory_scan.2 [some (some "a-1.0.0")] [some (some "b-2.0.0")] none (Or.inl rfl)

/-- Claim C7, counterexample to the claim as stated: a template consisting
of a single closing brace contains an unbalanced brace, yet with zero
supplied values every reporter operation succeeds and renders the brace as
literal text instead of failing. -/
theorem c7_counterexample :
    Dialog.msgStrWith plainStyling ⟨1⟩ Color.blue [cbrace] [] =
      some (⟨2⟩, ['-', '>', ' ', cbrace]) := by
  decide

/-- Claim C7 (amended): every reporter operation turns template processing
failure into a process-fatal panic (`none`, no partial output), and
processing fails exactly when some opening brace has no later closing brace,
or the content between an opening brace and the next closing brace is
neither empty nor `:?`, or the number of placeholders differs from the
number of supplied values; a closing brace with no preceding unmatched
opening brace is literal text (captured by the `specScan` scanner). -/
theorem c7_template_failure :
    ∀ (style : Styling) (d : Dialog) (c : Color) (msg : List Char) (ds : List Disp),
      Dialog.msgStrWith style d c msg ds = none ↔ ¬ specScan msg = some ds.length := by
  intro style d c msg ds
  have ht := tryNew_eq_specScan msg
  simp only [Dialog.msgStrWith]
  cases htn : FmtStr.tryNew msg with
  | none =>
    rw [htn] at ht
    simp only [Option.map_none'] at ht
    rw [← ht]
    simp
  | some f =>
    rw [htn] at ht
    simp only [Option.map_some'] at ht
    rw [← ht]
    simp only [Option.some_bind]
    have hiff := fmtSegments_isSome_iff style f.segments ds
    cases hfm : fmtSegments style f.segments ds with
    | none =>
      have hne : ¬ segMarkerCount f.segments = ds.length := by
        rw [hfm] at hiff
        simpa using hiff.symm.mp
      simp [FmtStr.tryFmt, hfm, hne]
    | some m =>
      have heq : segMarkerCount f.segments = ds.length := by
        rw [hfm] at hiff
        exact hiff.mp (by simp)
      simp [FmtStr.tryFmt, hfm, heq]

/-- All characters of a debug-escape-free string flatten back to itself. -/
theorem escape_flatten :
    ∀ (p : List Char), (∀ c ∈ p, rustCharEscapeDebug c = [c]) →
      (p.map rustCharEscapeDebug).flatten = p := by
  intro p
  induction p with
  | nil => intro _; rfl
  | cons c cs ih =>
    intro h
    have hc := h c (List.mem_cons_self c cs)
    have hcs := fun x hx => h x (List.mem_cons_of_mem c hx)
    simp [hc, ih hcs]

/-- Claim C8: a `Display` placeholder renders a count with its plain digits
(the template `Found {} crates` with the count 7 renders `Found 7 crates`),
while a `Debug` placeholder renders a path value quoted rather than plain
(stated with colors disabled; colored terminals additionally wrap the value
in styling codes). -/
theorem c8_rendering :
    ((FmtStr.tryNew ("Found ".toList ++ [obrace, cbrace] ++ " crates".toList)).bind
        fun f => f.tryFmt plainStyling [Disp.usize 7]) = some "Found 7 crates".toList ∧
    ∀ (p : List Char), (∀ c ∈ p, rustCharEscapeDebug c = [c]) →
      ((FmtStr.tryNew [obrace, ':', '?', cbrace]).bind
          fun f => f.tryFmt plainStyling [Disp.path p]) =
        some (Char.ofNat 34 :: (p ++ [Char.ofNat 34])) ∧
      ((FmtStr.tryNew [obrace, cbrace]).bind
          fun f => f.tryFmt plainStyling [Disp.path p]) = some p := by
  constructor
  · decide
  · intro p hp
    have hflat := escape_flatten p hp
    constructor
    · have h1 : FmtStr.tryNew [obrace, ':', '?', cbrace] =
          some ⟨[Segment.text [], Segment.marker DispType.debug none, Segment.text []]⟩ := by
        decide
      rw [h1]
      simp [FmtStr.tryFmt, fmtSegments, Disp.fmt, plainStyling, rustStrDebug, hflat]
    · have h2 : FmtStr.tryNew [obrace, cbrace] =
          some ⟨[Segment.text [], Segment.marker DispType.regular none, Segment.text []]⟩ := by
        decide
      rw [h2]
      simp [FmtStr.tryFmt, fmtSegments, Disp.fmt, plainStyling]

/-- Witness for Claim C8's path conjunct at a concrete path. -/
theorem c8_rendering_witness :
    ((FmtStr.tryNew [obrace, ':', '?', cbrace]).bind
        fun f => f.tryFmt plainStyling [Disp.path "some/path".toList]) =
      some (Char.ofNat 34 :: ("some/path".toList ++ [Char.ofNat 34])) :=
  (c8_rendering.2 "some/path".toList (by decide)).1

/-- Claim C9, counterexample to the claim as stated: at the maximal
representable indent depth, `saturating_add` keeps the child at the same
depth instead of one deeper, so "the child reporter's depth is n+1" fails
for n = `usizeMax`. -/
theorem c9_counterexample :
    (Dialog.msgStrWith plainStyling ⟨usizeMax⟩ Color.blue [] []).map
        (fun r => r.1.indent) = some usizeMax ∧
    usizeMax ≠ usizeMax + 1 := by
  constructor
  · have h1 : FmtStr.tryNew [] = some ⟨[Segment.text []]⟩ := by decide
    simp only [Dialog.msgStrWith, h1, FmtStr.tryFmt, fmtSegments, Option.some_bind,
      Option.map_some']
    rw [Nat.min_eq_right (Nat.le_succ usizeMax)]
  · omega

/-- Claim C9 (amended): an announce operation renders its line prefixed by
exactly `n-1` two-space repetitions and returns a child whose depth is
`min (n+1) usizeMax` — that is, `n+1` whenever `n < usizeMax`, saturating at
`usizeMax` —, and every reporter produced by any operation has depth at
least one. -/
theorem c9_reporter_depth :
    (∀ (d : Dialog) (c : Color) (msg : List Char) (ds : List Disp)
        (sub : Dialog) (line : List Char),
      Dialog.msgStrWith plainStyling d c msg ds = some (sub, line) →
      sub.indent = min (d.indent + 1) usizeMax ∧
      (d.indent < usizeMax → sub.indent = d.indent + 1) ∧
      ∃ body, line = (List.replicate (d.indent - 1) [' ', ' ']).flatten ++
        '-' :: '>' :: ' ' :: body) ∧
    (∀ (style : Styling) (d : Dialog) (c : Color) (msg : List Char) (ds : List Disp)
        (r : Dialog × List Char),
      Dialog.msgStrWith style d c msg ds = some r → 1 ≤ r.1.indent) ∧
    (∀ (style : Styling) (msg : List Char) (ds : List Disp) (d0 : Dialog),
      Dialog.newWith style msg ds = some d0 → d0.indent = 1) := by
  refine ⟨?_, ?_, ?_⟩
  · intro d c msg ds sub line h
    simp only [Dialog.msgStrWith] at h
    cases htn : FmtStr.tryNew msg with
    | none => rw [htn] at h; simp at h
    | some f =>
      rw [htn] at h
      simp only [Option.some_bind] at h
      cases hfm : f.tryFmt plainStyling ds with
      | none => rw [hfm] at h; simp at h
      | some m =>
        rw [hfm] at h
        simp only [Option.map_some', Option.some.injEq] at h
        have h1 : Dialog.mk (min (d.indent + 1) usizeMax) = sub :=
          congrArg Prod.fst h
        have h2 := congrArg Prod.snd h
        simp only at h2
        refine ⟨by rw [← h1], fun hlt => by rw [← h1]; simp [Nat.min_eq_left hlt], ?_⟩
        refine ⟨m, ?_⟩
        rw [← h2]
        simp [plainStyling, List.append_assoc]
  · intro style d c msg ds r h
    simp only [Dialog.msgStrWith] at h
    cases htn : FmtStr.tryNew msg with
    | none => rw [htn] at h; simp at h
    | some f =>
      rw [htn] at h
      simp only [Option.some_bind] at h
      cases hfm : f.tryFmt style ds with
      | none => rw [hfm] at h; simp at h
      | some m =>
        rw [hfm] at h
        simp only [Option.map_some', Option.some.injEq] at h
        have h1 : Dialog.mk (min (d.indent + 1) usizeMax) = r.1 :=
          congrArg Prod.fst h
        rw [← h1]
        refine Nat.le_min.mpr ⟨Nat.succ_le_succ (Nat.zero_le _), ?_⟩
        have : (0 : Nat) < 2 ^ 64 := Nat.pos_pow_of_pos 64 (by omega)
        simp only [usizeMax]
        omega
  · intro style msg ds d0 h
    simp only [Dialog.newWith] at h
    cases htn : FmtStr.tryNew msg with
    | none => rw [htn] at h; simp at h
    | some f =>
      rw [htn] at h
      simp only [Option.some_bind] at h
      cases hfm : f.tryFmt style ds with
      | none => rw [hfm] at h; simp at h
      | some m =>
        rw [hfm] at h
        simp only [Option.map_some', Option.some.injEq] at h
        rw [← h]

/-- Witness for Claim C9's amended theorem at a concrete depth-2 dialog. -/
theorem c9_reporter_depth_witness :
    (Dialog.mk 3).indent = min ((Dialog.mk 2).indent + 1) usizeMax ∧
    ((Dialog.mk 2).indent < usizeMax → (Dialog.mk 3).indent = (Dialog.mk 2).indent + 1) ∧
    ∃ body, [' ', ' ', '-', '>', ' '] =
      (List.replicate ((Dialog.mk 2).indent - 1) [' ', ' ']).flatten ++
        '-' :: '>' :: ' ' :: body :=
  c9_reporter_depth.1 ⟨2⟩ Color.blue [] [] ⟨3⟩ [' ', ' ', '-', '>', ' '] (by decide)

/-- Claim C10: for a successful response, the destination file name is
exactly the substring of the final response URL after its last slash; when
the final URL contains no slash the `unwrap` panics — the iteration yields
no per-target outcome and the whole remaining run is aborted. -/
theorem c10_dest_file_name :
    (∀ (resp : Response), '/' ∈ resp.finalUrl →
      destFileName resp = some (suffixAfterLastSlash resp.finalUrl)) ∧
    (∀ (env : List Char → TargetBehavior) (url : List Char) (resp : Response),
      (env url).network = some resp → '/' ∈ resp.finalUrl →
      (env url).fileCreate = true → (env url).fileWrite = true →
      (env url).fileOpen = true → (env url).extract = true →
      processTarget env url =
        some (Outcome.downloaded (suffixAfterLastSlash resp.finalUrl))) ∧
    (∀ (env : List Char → TargetBehavior) (url : List Char) (resp : Response),
      (env url).network = some resp → '/' ∉ resp.finalUrl →
      processTarget env url = none) ∧
    (∀ (env : List Char → TargetBehavior) (urls : List (List Char)) (u : List Char),
      u ∈ urls → processTarget env u = none → runLoop env 0 urls = none) := by
  refine ⟨?_, ?_, ?_, ?_⟩
  · intro resp h
    unfold destFileName suffixAfterLastSlash
    exact rsplitOnceChar_snd '/' resp.finalUrl h
  · intro env url resp hnet hsl hcreate hwrite hopen hextract
    have hdest : destFileName resp = some (suffixAfterLastSlash resp.finalUrl) := by
      unfold destFileName suffixAfterLastSlash
      exact rsplitOnceChar_snd '/' resp.finalUrl hsl
    simp only [processTarget, hnet, hdest, hcreate, hwrite, hopen, hextract]
    simp
  · intro env url resp hnet hsl
    have hdest : destFileName resp = none := by
      have : splitOnceChar '/' resp.finalUrl.reverse = none :=
        (splitOnceChar_eq_none_iff '/' resp.finalUrl.reverse).mpr
          (fun hm => hsl (List.mem_reverse.mp hm))
      simp [destFileName, rsplitOnceChar, this]
    simp [processTarget, hnet, hdest]
  · intro env urls
    have haux : ∀ (us : List (List Char)) (acc : Nat) (u : List Char),
        u ∈ us → processTarget env u = none → runLoop env acc us = none := by
      intro us
      induction us with
      | nil => intro acc u hu; exact absurd hu (List.not_mem_nil u)
      | cons v vs ih =>
        intro acc u hu hp
        rcases List.mem_cons.mp hu with h1 | h1
        · subst h1
          rw [runLoop, hp]
        · cases hv : processTarget env v with
          | none => rw [runLoop, hv]
          | some o =>
            rw [runLoop, hv]
            simp only []
            rw [ih _ u h1 hp]
            rfl
    exact haux urls 0

/-- Witness for Claim C10 at concrete inputs: a URL with a slash yields the
suffix as file name; a response URL without a slash panics and aborts the
run. -/
theorem c10_dest_file_name_witness :
    destFileName ⟨['a', '/', 'b']⟩ = some ['b'] ∧
    runLoop (fun _ => ⟨some ⟨['u']⟩, true, true, true, true⟩) 0 [['x'], ['y']] = none :=
  ⟨c10_dest_file_name.1 ⟨['a', '/', 'b']⟩ (by decide),
    c10_dest_file_name.2.2.2 (fun _ => ⟨some ⟨['u']⟩, true, true, true, true⟩)
      [['x'], ['y']] ['x'] (by decide) (by decide)⟩

end Dumpsta
